import Mathlib

/-!
Verification of the chunking and similarity-search core of the repository.

The development shallowly embeds the two source modules:

* `pdf_utils.py`: `chunk_text` (text segmentation with delimiter-aware
  splitting and overlap) and the chunk-building part of `process_pdf`
  (the pdfplumber extraction step is an external collaborator and is
  modelled by passing the extracted page list as an argument).
* `embedding_utils.py`: `calculate_cosine_similarity` and
  `search_similar_chunks` (the sentence-transformers embedding model is an
  external collaborator; the search is parameterised by the function
  computing the similarity of a chunk embedding against the query vector,
  which the source instantiates with cosine similarity against the query
  embedding).

Python strings are embedded as `List Char` (Python indexes strings by code
point), Python's arbitrary-size integers as `Nat` (all quantities involved
are non-negative), and numpy float vectors as `List ℚ` idealised to exact
arithmetic, with cosine similarity valued in `ℝ`.

The segmentation `while` loop is embedded with an explicit fuel parameter
returning `Option`: `none` models non-termination of the Python loop
(which really occurs for `max_chars = 0` on non-empty text, since the
source validates nothing).  We prove that fuel `length + 1` suffices
whenever `1 ≤ max_chars`.
-/

/-- Python slice `text[a:b]` on a list of characters (non-negative indices,
clamped to the text length exactly as in Python). -/
def pySlice (t : List Char) (a b : Nat) : List Char :=
  (t.take b).drop a

/-- The delimiter priority list of `chunk_text`:
`for delimiter in ["。", "\n", "、", " "]`. -/
def delims : List Char := ['。', '\n', '、', ' ']

/-- Backward scan underlying `pyRfind`: checks positions
`s + n - 1, ..., s + 1, s` in that order and returns the first hit. -/
def rfindDown (t : List Char) (c : Char) (s : Nat) : Nat → Option Nat
  | 0 => none
  | n + 1 => if t[s + n]? = some c then some (s + n) else rfindDown t c s n

/-- Python `text.rfind(c, s, e)` for a single-character needle: the largest
position `p` with `s ≤ p < min e (len text)` and `text[p] = c`, scanning
from the right; `none` models Python's `-1`. -/
def pyRfind (t : List Char) (c : Char) (s e : Nat) : Option Nat :=
  rfindDown t c s (min e t.length - s)

/-- The delimiter loop of `chunk_text`:
`for delimiter in [...]: pos = text.rfind(delimiter, start, end); if pos > start: split_pos = pos + 1; break`,
with `split_pos` defaulting to `end` when no delimiter breaks the loop. -/
def splitGo (t : List Char) (s e : Nat) : List Char → Nat
  | [] => e
  | d :: ds =>
    match pyRfind t d s e with
    | some p => if s < p then p + 1 else splitGo t s e ds
    | none => splitGo t s e ds

/-- The split position chosen by `chunk_text` for the window `[s, e)`. -/
def splitPos (t : List Char) (s e : Nat) : Nat :=
  splitGo t s e delims

/-- The advance rule of `chunk_text`:
`start = split_pos - overlap if split_pos - overlap > start else split_pos`.
On `Nat`, truncated subtraction agrees with Python's integer subtraction
here because the branch is only taken when the difference exceeds
`s ≥ 0`. -/
def nextStart (s sp ov : Nat) : Nat :=
  if s < sp - ov then sp - ov else sp

/-- The `while start < len(text)` loop of `chunk_text`, with explicit fuel;
`none` models a loop that does not terminate within `fuel` iterations. -/
def chunkLoop (t : List Char) (maxc ov : Nat) : Nat → Nat → Option (List (List Char))
  | 0, _ => none
  | fuel + 1, s =>
    if s < t.length then
      if t.length ≤ s + maxc then some [t.drop s]
      else
        (chunkLoop t maxc ov fuel (nextStart s (splitPos t s (s + maxc)) ov)).map
          (fun cs => pySlice t s (splitPos t s (s + maxc)) :: cs)
    else some []

/-- `chunk_text(text, max_chars, overlap)` from `pdf_utils.py`.  Returns the
chunk list; `none` models non-termination of the source loop (the source
performs no parameter validation whatsoever). -/
def chunk_text (t : List Char) (maxc ov : Nat) : Option (List (List Char)) :=
  if t.length ≤ maxc then some [t]
  else chunkLoop t maxc ov (t.length + 1) 0

/-- The same loop as `chunkLoop`, returning the window `(start, split_pos)`
of each emitted chunk instead of the chunk text (the final chunk has window
`(start, len text)`).  Used to state and prove coverage. -/
def chunkLoopW (t : List Char) (maxc ov : Nat) : Nat → Nat → Option (List (Nat × Nat))
  | 0, _ => none
  | fuel + 1, s =>
    if s < t.length then
      if t.length ≤ s + maxc then some [(s, t.length)]
      else
        (chunkLoopW t maxc ov fuel (nextStart s (splitPos t s (s + maxc)) ov)).map
          (fun ws => (s, splitPos t s (s + maxc)) :: ws)
    else some []

/-- End of the window carved at `s`: the text length for a final window,
otherwise the chosen split position. -/
def winEnd (t : List Char) (maxc s : Nat) : Nat :=
  if t.length ≤ s + maxc then t.length else splitPos t s (s + maxc)

/-- Concatenation of the windows' text with the part overlapping the
previous window (everything before the previous window's end `pe`)
removed from each window. -/
def joinWindows (t : List Char) : Nat → List (Nat × Nat) → List Char
  | _, [] => []
  | pe, w :: ws => ((pySlice t w.1 w.2).drop (pe - w.1)) ++ joinWindows t w.2 ws

/-- A chunk record as produced by `process_pdf` (a dict in the source):
PDF name, 1-based page number, chunk text, and the optional embedding
vector, `none` until the vectorisation pass runs. -/
structure ChunkInfo where
  pdf_name : String
  page_number : Nat
  text : List Char
  embedding : Option (List ℚ)
  deriving DecidableEq, Repr

/-- Chunks contributed by one extracted page in `process_pdf`:
`chunk_text(page_text, max_chars=max_chunk_chars)` (overlap left at its
default `100`), each chunk paired with the PDF name and page number. -/
def pageChunks (name : String) (maxChunkChars : Nat) (p : Nat × List Char) :
    Option (List ChunkInfo) :=
  (chunk_text p.2 maxChunkChars 100).map
    (fun cs => cs.map (fun c => ⟨name, p.1, c, none⟩))

/-- The chunk-building part of `process_pdf` from `pdf_utils.py`, taking the
extracted `pages_data` (the pdfplumber extraction is an external
collaborator).  `none` models both the exception raised on an empty page
list and non-termination of the segmentation loop. -/
def process_pdf_pages (name : String) (pages : List (Nat × List Char))
    (maxChunkChars : Nat) : Option (List ChunkInfo) :=
  if pages.isEmpty then none
  else (pages.mapM (pageChunks name maxChunkChars)).map List.flatten

/-- A search result record of `search_similar_chunks`, generic in the type
of similarity scores. -/
structure SearchResult (α : Type) where
  pdf_name : String
  page_number : Nat
  text : List Char
  similarity : α
  deriving DecidableEq, Repr

/-- The scan loop of `search_similar_chunks`: skip chunks whose embedding is
unset, compute the similarity, and retain results with
`similarity >= threshold`, in original chunk order.  `sim` is the
similarity of a chunk embedding against the query (the source computes it
as `calculate_cosine_similarity(query_embedding, chunk["embedding"])`). -/
def scanResults {α : Type} [LinearOrder α] (sim : List ℚ → α)
    (chunks : List ChunkInfo) (threshold : α) : List (SearchResult α) :=
  chunks.filterMap (fun c =>
    match c.embedding with
    | none => none
    | some emb =>
      if threshold ≤ sim emb then
        some ⟨c.pdf_name, c.page_number, c.text, sim emb⟩
      else none)

/-- Comparison used to sort results:
`results.sort(key=lambda x: x["similarity"], reverse=True)`,
a stable descending sort by similarity. -/
def simDesc {α : Type} [LinearOrder α] (a b : SearchResult α) : Bool :=
  decide (b.similarity ≤ a.similarity)

/-- `search_similar_chunks(query, chunks, top_k, threshold)` from
`embedding_utils.py`: scan, threshold-filter, stable sort by descending
similarity, and return the first `top_k` results.  Python's stable
`list.sort` with `reverse=True` is embedded as a stable merge sort with the
flipped comparison. -/
def search_similar_chunks {α : Type} [LinearOrder α] (sim : List ℚ → α)
    (chunks : List ChunkInfo) (topK : Nat) (threshold : α) :
    List (SearchResult α) :=
  ((scanResults sim chunks threshold).mergeSort simDesc).take topK

/-- `np.dot` of two vectors (exact arithmetic). -/
def dotProduct (a b : List ℚ) : ℚ :=
  (List.zipWith (fun x y => x * y) a b).sum

/-- Squared Euclidean norm, so that `np.linalg.norm v = Real.sqrt (normSq v)`. -/
def normSq (a : List ℚ) : ℚ :=
  dotProduct a a

open Classical in
/-- `calculate_cosine_similarity(vec1, vec2)` from `embedding_utils.py`:
`0.0` when either Euclidean norm is exactly zero, otherwise the dot product
divided by the product of the norms. -/
noncomputable def calculate_cosine_similarity (v1 v2 : List ℚ) : ℝ :=
  if Real.sqrt (normSq v1) = 0 ∨ Real.sqrt (normSq v2) = 0 then 0
  else (dotProduct v1 v2 : ℝ) / (Real.sqrt (normSq v1) * Real.sqrt (normSq v2))

/-- `search_similar_chunks` as the source composes it: similarity of each
chunk is the cosine similarity against the query embedding (itself produced
by the external model from the query string). -/
noncomputable def search_similar_chunksR (queryEmbedding : List ℚ)
    (chunks : List ChunkInfo) (topK : Nat) (threshold : ℝ) :
    List (SearchResult ℝ) :=
  search_similar_chunks (calculate_cosine_similarity queryEmbedding) chunks topK threshold

/-- Positions strictly after `s` and before `e` holding character `d`, in
increasing order.  Spec-side notion used to characterise the split choice. -/
def occPositions (t : List Char) (d : Char) (s e : Nat) : List Nat :=
  (List.range t.length).filter
    (fun p => decide (s < p) && decide (p < e) && decide (t[p]? = some d))

/-- Modelled from the spec: the split point described in §4.1 of the spec —
the first delimiter in priority order with any occurrence strictly after
`s` decides, the split point is one past its last occurrence in the window,
and the raw window end `e` is used when no delimiter occurs. -/
def splitPosSpec (t : List Char) (s e : Nat) : Nat :=
  match delims.find? (fun d => !(occPositions t d s e).isEmpty) with
  | some d => (occPositions t d s e).getLast?.getD e + 1
  | none => e

/-- Auxiliary guard predicate for the window-monotonicity proof: walking the
delimiter priority list from state `s'` (window `[s', w')`), every
delimiter either has no occurrence in `(s', e - 1)` (so a hit can only land
at `e - 1` or beyond), or has a witness occurrence at position `≥ e - 1`
shielding all earlier occurrences from the backward search. -/
inductive SplitGuard (t : List Char) (s' w' e : Nat) : List Char → Prop
  | nil : SplitGuard t s' w' e []
  | shield (d : Char) (L : List Char) (q : Nat) (hs : s' ≤ q) (he : e ≤ q + 1)
      (hw : q < w') (hl : q < t.length) (hq : t[q]? = some d) :
      SplitGuard t s' w' e (d :: L)
  | pass (d : Char) (L : List Char)
      (hno : ∀ q, s' < q → q + 1 < e → q < t.length → t[q]? ≠ some d)
      (hL : SplitGuard t s' w' e L) : SplitGuard t s' w' e (d :: L)

/-! ## Properties of the backward character search -/

theorem rfindDown_eq_some {t : List Char} {c : Char} {s : Nat} :
    ∀ {n p : Nat}, rfindDown t c s n = some p →
      s ≤ p ∧ p < s + n ∧ t[p]? = some c ∧ ∀ q, p < q → q < s + n → t[q]? ≠ some c := by
  intro n
  induction n with
  | zero => simp [rfindDown]
  | succ n ih =>
    intro p h
    simp only [rfindDown] at h
    split at h
    · rename_i hc
      cases h
      exact ⟨by omega, by omega, hc, by intro q h1 h2; omega⟩
    · rename_i hc
      obtain ⟨h1, h2, h3, h4⟩ := ih h
      refine ⟨h1, by omega, h3, ?_⟩
      intro q hq1 hq2
      by_cases hq : q = s + n
      · subst hq; exact hc
      · exact h4 q hq1 (by omega)

theorem rfindDown_ge {t : List Char} {c : Char} {s : Nat} :
    ∀ {n q : Nat}, t[q]? = some c → s ≤ q → q < s + n →
      ∃ p, rfindDown t c s n = some p ∧ q ≤ p := by
  intro n
  induction n with
  | zero => intro q _ _ h; omega
  | succ n ih =>
    intro q hq h1 h2
    simp only [rfindDown]
    split
    · exact ⟨s + n, rfl, by omega⟩
    · rename_i hc
      have hqn : q ≠ s + n := by intro h; exact hc (h ▸ hq)
      obtain ⟨p, hp, hpq⟩ := ih hq h1 (by omega)
      exact ⟨p, hp, hpq⟩

theorem pyRfind_eq_some {t : List Char} {c : Char} {s e p : Nat}
    (h : pyRfind t c s e = some p) :
    s ≤ p ∧ p < e ∧ p < t.length ∧ t[p]? = some c ∧
      ∀ q, p < q → q < e → q < t.length → t[q]? ≠ some c := by
  obtain ⟨h1, h2, h3, h4⟩ := rfindDown_eq_some h
  have hb : p < min e t.length := by omega
  refine ⟨h1, by omega, by omega, h3, ?_⟩
  intro q hq1 hq2 hq3
  exact h4 q hq1 (by omega)

theorem pyRfind_ge {t : List Char} {c : Char} {s e q : Nat}
    (hq : t[q]? = some c) (h1 : s ≤ q) (h2 : q < e) (h3 : q < t.length) :
    ∃ p, pyRfind t c s e = some p ∧ q ≤ p := by
  exact rfindDown_ge hq h1 (by omega)


/-! ## Properties of the delimiter priority loop -/

theorem splitGo_cons_none {t : List Char} {s e : Nat} {d : Char} {ds : List Char}
    (h : pyRfind t d s e = none) : splitGo t s e (d :: ds) = splitGo t s e ds := by
  simp [splitGo, h]

theorem splitGo_cons_break {t : List Char} {s e : Nat} {d : Char} {ds : List Char} {p : Nat}
    (h : pyRfind t d s e = some p) (hsp : s < p) : splitGo t s e (d :: ds) = p + 1 := by
  simp [splitGo, h, hsp]

theorem splitGo_cons_skip {t : List Char} {s e : Nat} {d : Char} {ds : List Char} {p : Nat}
    (h : pyRfind t d s e = some p) (hsp : ¬ s < p) :
    splitGo t s e (d :: ds) = splitGo t s e ds := by
  simp [splitGo, h, hsp]

theorem splitGo_le {t : List Char} {s e : Nat} :
    ∀ L, splitGo t s e L ≤ e := by
  intro L
  induction L with
  | nil => simp [splitGo]
  | cons d ds ih =>
    cases hr : pyRfind t d s e with
    | none => rw [splitGo_cons_none hr]; exact ih
    | some p =>
      obtain ⟨_, hpe, _, _, _⟩ := pyRfind_eq_some hr
      by_cases hsp : s < p
      · rw [splitGo_cons_break hr hsp]; omega
      · rw [splitGo_cons_skip hr hsp]; exact ih

theorem splitGo_gt {t : List Char} {s e : Nat} (hse : s < e) :
    ∀ L, s < splitGo t s e L := by
  intro L
  induction L with
  | nil => simpa [splitGo] using hse
  | cons d ds ih =>
    cases hr : pyRfind t d s e with
    | none => rw [splitGo_cons_none hr]; exact ih
    | some p =>
      by_cases hsp : s < p
      · rw [splitGo_cons_break hr hsp]; omega
      · rw [splitGo_cons_skip hr hsp]; exact ih

theorem splitGo_cases {t : List Char} {s e : Nat} :
    ∀ L : List Char,
      (splitGo t s e L = e ∧
        ∀ d ∈ L, ∀ q, s < q → q < e → q < t.length → t[q]? ≠ some d) ∨
      (∃ L₁ d L₂ p, L = L₁ ++ d :: L₂ ∧
        (∀ d₁ ∈ L₁, ∀ q, s < q → q < e → q < t.length → t[q]? ≠ some d₁) ∧
        s < p ∧ p < e ∧ p < t.length ∧ t[p]? = some d ∧
        (∀ q, p < q → q < e → q < t.length → t[q]? ≠ some d) ∧
        splitGo t s e L = p + 1) := by
  intro L
  induction L with
  | nil => exact Or.inl ⟨rfl, by simp⟩
  | cons d ds ih =>
    have noOcc : (pyRfind t d s e = none ∨ ∃ p, pyRfind t d s e = some p ∧ ¬ s < p) →
        ∀ q, s < q → q < e → q < t.length → t[q]? ≠ some d := by
      intro hcase q hq1 hq2 hq3 hq
      obtain ⟨p, hp, hple⟩ := @pyRfind_ge t d s e q hq (by omega) hq2 hq3
      rcases hcase with hnone | ⟨p', hp', hns⟩
      · rw [hp] at hnone; cases hnone
      · rw [hp] at hp'; cases hp'; omega
    have cont : (pyRfind t d s e = none ∨ ∃ p, pyRfind t d s e = some p ∧ ¬ s < p) →
        splitGo t s e (d :: ds) = splitGo t s e ds := by
      rintro (hnone | ⟨p, hp, hns⟩)
      · exact splitGo_cons_none hnone
      · exact splitGo_cons_skip hp hns
    cases hr : pyRfind t d s e with
    | none =>
      have hc : pyRfind t d s e = none ∨ ∃ p', pyRfind t d s e = some p' ∧ ¬ s < p' :=
        Or.inl hr
      rcases ih with ⟨h1, h2⟩ | ⟨L₁, d', L₂, p, hL, hno, h⟩
      · refine Or.inl ⟨by rw [cont hc]; exact h1, ?_⟩
        intro d₁ hd₁
        rcases List.mem_cons.mp hd₁ with rfl | hmem
        · exact noOcc hc
        · exact h2 d₁ hmem
      · obtain ⟨h3, h4, h5, h6, h7, h8⟩ := h
        refine Or.inr ⟨d :: L₁, d', L₂, p, by simp [hL], ?_, h3, h4, h5, h6, h7,
          by rw [cont hc]; exact h8⟩
        intro d₁ hd₁
        rcases List.mem_cons.mp hd₁ with rfl | hmem
        · exact noOcc hc
        · exact hno d₁ hmem
    | some p =>
      by_cases hsp : s < p
      · obtain ⟨_, h2, h3, h4, h5⟩ := pyRfind_eq_some hr
        exact Or.inr ⟨[], d, ds, p, rfl, by simp, hsp, h2, h3, h4, h5,
          splitGo_cons_break hr hsp⟩
      · have hc : pyRfind t d s e = none ∨ ∃ p', pyRfind t d s e = some p' ∧ ¬ s < p' :=
          Or.inr ⟨p, hr, hsp⟩
        rcases ih with ⟨h1, h2⟩ | ⟨L₁, d', L₂, p', hL, hno, h⟩
        · refine Or.inl ⟨by rw [cont hc]; exact h1, ?_⟩
          intro d₁ hd₁
          rcases List.mem_cons.mp hd₁ with rfl | hmem
          · exact noOcc hc
          · exact h2 d₁ hmem
        · obtain ⟨h3, h4, h5, h6, h7, h8⟩ := h
          refine Or.inr ⟨d :: L₁, d', L₂, p', by simp [hL], ?_, h3, h4, h5, h6, h7,
            by rw [cont hc]; exact h8⟩
          intro d₁ hd₁
          rcases List.mem_cons.mp hd₁ with rfl | hmem
          · exact noOcc hc
          · exact hno d₁ hmem

/-! ## The advance rule -/

theorem nextStart_cases (s sp ov : Nat) :
    nextStart s sp ov = sp - ov ∨ nextStart s sp ov = sp := by
  unfold nextStart
  split
  · exact Or.inl rfl
  · exact Or.inr rfl

theorem nextStart_gt {s sp : Nat} (ov : Nat) (h : s < sp) : s < nextStart s sp ov := by
  unfold nextStart
  split <;> omega

theorem nextStart_le (s sp ov : Nat) : nextStart s sp ov ≤ sp := by
  unfold nextStart
  split <;> omega

/-! ## Monotonicity of window ends across iterations -/

theorem splitGo_guard {t : List Char} {s' w' e : Nat} :
    ∀ {L : List Char}, SplitGuard t s' w' e L → s' < w' → e ≤ w' →
      e ≤ splitGo t s' w' L := by
  intro L hG
  induction hG with
  | nil => intro _ hew; simpa [splitGo] using hew
  | shield d L q hs he hw hl hq =>
    intro hsw _
    obtain ⟨p, hp, hqp⟩ := @pyRfind_ge t d s' w' q hq hs hw hl
    by_cases hsp : s' < p
    · rw [splitGo_cons_break hp hsp]; omega
    · rw [splitGo_cons_skip hp hsp]
      have hgt := @splitGo_gt t s' w' hsw L
      omega

  | pass d L hno hL ih =>
    intro hsw hew
    cases hr : pyRfind t d s' w' with
    | none => rw [splitGo_cons_none hr]; exact ih hsw hew
    | some p =>
      by_cases hsp : s' < p
      · rw [splitGo_cons_break hr hsp]
        obtain ⟨_, _, hplen, hpc, _⟩ := pyRfind_eq_some hr
        by_contra hlt
        exact hno p hsp (by omega) hplen hpc
      · rw [splitGo_cons_skip hr hsp]; exact ih hsw hew

theorem splitGuard_of_pass_all {t : List Char} {s' w' e : Nat} :
    ∀ L : List Char,
      (∀ d ∈ L, ∀ q, s' < q → q + 1 < e → q < t.length → t[q]? ≠ some d) →
      SplitGuard t s' w' e L := by
  intro L
  induction L with
  | nil => intro _; exact SplitGuard.nil
  | cons d ds ih =>
    intro h
    exact SplitGuard.pass d ds (h d (List.mem_cons_self d ds))
      (ih (fun d₁ hd₁ => h d₁ (List.mem_cons_of_mem d hd₁)))

theorem splitGuard_append {t : List Char} {s' w' e : Nat} :
    ∀ L₁ : List Char, ∀ {L₂ : List Char},
      (∀ d ∈ L₁, ∀ q, s' < q → q + 1 < e → q < t.length → t[q]? ≠ some d) →
      SplitGuard t s' w' e L₂ → SplitGuard t s' w' e (L₁ ++ L₂) := by
  intro L₁
  induction L₁ with
  | nil => intro L₂ _ h2; exact h2
  | cons d ds ih =>
    intro L₂ h1 h2
    exact SplitGuard.pass d (ds ++ L₂) (h1 d (List.mem_cons_self d ds))
      (ih (fun d₁ hd₁ => h1 d₁ (List.mem_cons_of_mem d hd₁)) h2)

/-- Across one iteration of the segmentation loop, the window end never
moves backwards: the next window's end (the text length for a final window,
the next split position otherwise) is at least the current split
position.  This is what makes overlap removal well defined. -/
theorem winEnd_next_ge {t : List Char} {maxc ov s : Nat}
    (hnf : s + maxc < t.length) (hov : ov < maxc) :
    splitPos t s (s + maxc) ≤ winEnd t maxc (nextStart s (splitPos t s (s + maxc)) ov) := by
  have hse : s < s + maxc := by omega
  have hel : splitPos t s (s + maxc) ≤ s + maxc := splitGo_le delims
  have hes : s < splitPos t s (s + maxc) := splitGo_gt hse delims
  generalize hgen : splitPos t s (s + maxc) = e at hel hes ⊢
  set s' := nextStart s e ov with hs'
  have hss' : s < s' := nextStart_gt ov hes
  have hs'e : s' ≤ e := nextStart_le s e ov
  have hew' : e ≤ s' + maxc := by
    rcases nextStart_cases s e ov with h | h <;> rw [hs', h] <;> omega
  unfold winEnd
  by_cases hfin : t.length ≤ s' + maxc
  · rw [if_pos hfin]; omega
  · rw [if_neg hfin]
    by_cases htriv : e ≤ s' + 1
    · have hgt := @splitGo_gt t s' (s' + maxc) (by omega) delims
      unfold splitPos
      omega
    · apply splitGo_guard ?_ (by omega) hew'
      rcases @splitGo_cases t s (s + maxc) delims with ⟨h1, h2⟩ |
        ⟨L₁, d, L₂, p, hL, hno, hp1, hp2, hp3, hp4, hmax, hres⟩
      · rw [splitPos] at hgen
        rw [hgen] at h1
        apply splitGuard_of_pass_all
        intro d hd q hq1 hq2 hq3
        exact h2 d hd q (by omega) (by omega) hq3
      · rw [splitPos] at hgen
        rw [hgen] at hres
        rw [hL]
        apply splitGuard_append
        · intro d₁ hd₁ q hq1 hq2 hq3
          exact hno d₁ hd₁ q (by omega) (by omega) hq3
        · exact SplitGuard.shield d L₂ p (by omega) (by omega) (by omega) hp3 hp4

/-! ## Properties of slices and of the segmentation loop -/

theorem pySlice_to_length (t : List Char) (s : Nat) :
    pySlice t s t.length = t.drop s := by
  simp [pySlice, List.take_length]

theorem pySlice_length (t : List Char) (a b : Nat) :
    (pySlice t a b).length = min b t.length - a := by
  simp [pySlice]

theorem pySlice_ne_nil {t : List Char} {a b : Nat} (hab : a < b) (hal : a < t.length) :
    pySlice t a b ≠ [] := by
  have h := pySlice_length t a b
  intro hnil
  rw [hnil] at h
  simp at h
  omega

theorem chunkLoop_eq_W (t : List Char) (maxc ov : Nat) :
    ∀ fuel s, chunkLoop t maxc ov fuel s =
      (chunkLoopW t maxc ov fuel s).map (List.map (fun w => pySlice t w.1 w.2)) := by
  intro fuel
  induction fuel with
  | zero => intro s; simp [chunkLoop, chunkLoopW]
  | succ fuel ih =>
    intro s
    simp only [chunkLoop, chunkLoopW]
    by_cases h1 : s < t.length
    · rw [if_pos h1, if_pos h1]
      by_cases h2 : t.length ≤ s + maxc
      · rw [if_pos h2, if_pos h2]
        simp [pySlice_to_length]
      · rw [if_neg h2, if_neg h2, ih]
        cases chunkLoopW t maxc ov fuel (nextStart s (splitPos t s (s + maxc)) ov) <;> simp
    · rw [if_neg h1, if_neg h1]; simp

theorem chunkLoopW_zero (t : List Char) (maxc ov s : Nat) :
    chunkLoopW t maxc ov 0 s = none := rfl

theorem chunkLoopW_succ (t : List Char) (maxc ov fuel s : Nat) :
    chunkLoopW t maxc ov (fuel + 1) s =
      if s < t.length then
        if t.length ≤ s + maxc then some [(s, t.length)]
        else
          (chunkLoopW t maxc ov fuel (nextStart s (splitPos t s (s + maxc)) ov)).map
            (fun ws => (s, splitPos t s (s + maxc)) :: ws)
      else some [] := rfl

theorem chunkLoopW_some {t : List Char} {maxc ov : Nat} (hm : 1 ≤ maxc) :
    ∀ fuel s, t.length ≤ s + fuel →
      ∃ ws, chunkLoopW t maxc ov (fuel + 1) s = some ws := by
  intro fuel
  induction fuel with
  | zero =>
    intro s hs
    have h1 : ¬ s < t.length := by omega
    rw [chunkLoopW_succ, if_neg h1]
    exact ⟨_, rfl⟩
  | succ fuel ih =>
    intro s hs
    rw [chunkLoopW_succ]
    by_cases h1 : s < t.length
    · rw [if_pos h1]
      by_cases h2 : t.length ≤ s + maxc
      · rw [if_pos h2]; exact ⟨_, rfl⟩
      · rw [if_neg h2]
        have hes : s < splitPos t s (s + maxc) := splitGo_gt (by omega) delims
        have hss' : s < nextStart s (splitPos t s (s + maxc)) ov := nextStart_gt ov hes
        obtain ⟨ws, hws⟩ := ih (nextStart s (splitPos t s (s + maxc)) ov) (by omega)
        rw [hws]
        exact ⟨_, rfl⟩
    · rw [if_neg h1]; exact ⟨_, rfl⟩

theorem chunkLoopW_spec {t : List Char} {maxc ov : Nat} (hm : 1 ≤ maxc) :
    ∀ fuel s ws, chunkLoopW t maxc ov fuel s = some ws → s < t.length →
      (∃ w0 rest, ws = w0 :: rest ∧ w0.1 = s) ∧
      ws.getLast?.map Prod.snd = some t.length ∧
      List.Chain' (fun a b => b.1 = a.2 - ov ∨ b.1 = a.2) ws ∧
      (∀ w ∈ ws, w.1 < w.2 ∧ w.2 ≤ t.length ∧ w.2 ≤ w.1 + maxc) ∧
      ws.length + s ≤ t.length := by
  intro fuel
  induction fuel with
  | zero => intro s ws h; rw [chunkLoopW_zero] at h; simp at h
  | succ fuel ih =>
    intro s ws h hs
    rw [chunkLoopW_succ, if_pos hs] at h
    by_cases h2 : t.length ≤ s + maxc
    · rw [if_pos h2] at h
      cases h
      refine ⟨⟨(s, t.length), [], rfl, rfl⟩, by simp, by simp, by simp; omega, by simp; omega⟩
    · rw [if_neg h2] at h
      cases hrec : chunkLoopW t maxc ov fuel (nextStart s (splitPos t s (s + maxc)) ov) with
      | none => rw [hrec] at h; simp at h
      | some ws' =>
        rw [hrec] at h
        simp only [Option.map_some'] at h
        cases h
        have hes : s < splitPos t s (s + maxc) := splitGo_gt (by omega) delims
        have hel : splitPos t s (s + maxc) ≤ s + maxc := splitGo_le delims
        have hss' : s < nextStart s (splitPos t s (s + maxc)) ov := nextStart_gt ov hes
        have hs'e : nextStart s (splitPos t s (s + maxc)) ov ≤ splitPos t s (s + maxc) :=
          nextStart_le s (splitPos t s (s + maxc)) ov
        have hs'len : nextStart s (splitPos t s (s + maxc)) ov < t.length := by omega
        obtain ⟨⟨w0, rest, hws', hw0⟩, hlast, hchain, hwf, hcount⟩ := ih _ _ hrec hs'len
        refine ⟨⟨(s, splitPos t s (s + maxc)), ws', rfl, rfl⟩, ?_, ?_, ?_,
          by simp only [List.length_cons]; omega⟩
        · rw [hws', List.getLast?_cons_cons, ← hws']
          exact hlast
        · rw [hws']
          rw [List.chain'_cons]
          refine ⟨?_, hws' ▸ hchain⟩
          rw [hw0]
          exact nextStart_cases s (splitPos t s (s + maxc)) ov
        · intro w hw
          rcases List.mem_cons.mp hw with rfl | hmem
          · exact ⟨hes, by omega, by omega⟩
          · exact hwf w hmem

theorem pySlice_append_drop {t : List Char} {s pe e : Nat}
    (hspe : s ≤ pe) (hpee : pe ≤ e) (hel : e ≤ t.length) :
    (pySlice t s e).drop (pe - s) ++ t.drop e = t.drop pe := by
  have h1 : (pySlice t s e).drop (pe - s) = (t.take e).drop pe := by
    unfold pySlice
    rw [List.drop_drop]
    congr 1
    omega
  rw [h1]
  conv_rhs => rw [← List.take_append_drop e t]
  rw [List.drop_append_eq_append_drop]
  have h2 : (t.take e).length = e := by
    rw [List.length_take]
    omega
  rw [h2]
  have h3 : pe - e = 0 := by omega
  rw [h3, List.drop_zero]

theorem chunkLoopW_join {t : List Char} {maxc ov : Nat} (hov : ov < maxc) :
    ∀ fuel s ws pe, chunkLoopW t maxc ov fuel s = some ws → s < t.length →
      s ≤ pe → pe ≤ winEnd t maxc s → joinWindows t pe ws = t.drop pe := by
  intro fuel
  induction fuel with
  | zero => intro s ws pe h; rw [chunkLoopW_zero] at h; simp at h
  | succ fuel ih =>
    intro s ws pe h hs hspe hpew
    rw [chunkLoopW_succ, if_pos hs] at h
    by_cases h2 : t.length ≤ s + maxc
    · rw [if_pos h2] at h
      cases h
      have hwl : winEnd t maxc s = t.length := by rw [winEnd, if_pos h2]
      simp only [joinWindows, List.append_nil]
      rw [pySlice_to_length, List.drop_drop]
      congr 1
      omega
    · rw [if_neg h2] at h
      cases hrec : chunkLoopW t maxc ov fuel (nextStart s (splitPos t s (s + maxc)) ov) with
      | none => rw [hrec] at h; simp at h
      | some ws' =>
        rw [hrec] at h
        simp only [Option.map_some'] at h
        cases h
        have hwl : winEnd t maxc s = splitPos t s (s + maxc) := by rw [winEnd, if_neg h2]
        have hes : s < splitPos t s (s + maxc) := splitGo_gt (by omega) delims
        have hel : splitPos t s (s + maxc) ≤ s + maxc := splitGo_le delims
        have hs'e : nextStart s (splitPos t s (s + maxc)) ov ≤ splitPos t s (s + maxc) :=
          nextStart_le s (splitPos t s (s + maxc)) ov
        have hs'len : nextStart s (splitPos t s (s + maxc)) ov < t.length := by omega
        have hmono := @winEnd_next_ge t maxc ov s (by omega : s + maxc < t.length) hov
        have hrecj := ih _ _ (splitPos t s (s + maxc)) hrec hs'len hs'e hmono
        simp only [joinWindows]
        rw [hrecj]
        exact pySlice_append_drop hspe (by omega) (by omega)

theorem chunkLoop_zero (t : List Char) (maxc ov s : Nat) :
    chunkLoop t maxc ov 0 s = none := rfl

theorem chunkLoop_succ (t : List Char) (maxc ov fuel s : Nat) :
    chunkLoop t maxc ov (fuel + 1) s =
      if s < t.length then
        if t.length ≤ s + maxc then some [t.drop s]
        else
          (chunkLoop t maxc ov fuel (nextStart s (splitPos t s (s + maxc)) ov)).map
            (fun cs => pySlice t s (splitPos t s (s + maxc)) :: cs)
      else some [] := rfl

theorem chunk_text_long {t : List Char} {maxc ov : Nat}
    (h : maxc < t.length) (hm : 1 ≤ maxc) :
    ∃ ws, chunkLoopW t maxc ov (t.length + 1) 0 = some ws ∧
      chunk_text t maxc ov = some (ws.map (fun w => pySlice t w.1 w.2)) := by
  obtain ⟨ws, hws⟩ := @chunkLoopW_some t maxc ov hm t.length 0 (by omega)
  refine ⟨ws, hws, ?_⟩
  rw [chunk_text, if_neg (by omega), chunkLoop_eq_W, hws]
  rfl

/-- C2: for every non-empty text and parameters with `overlap < max_chars`,
segmentation succeeds and its chunks are the slices of a window list whose
first window starts at 0, whose last window ends at the text length, where
each next window starts at the previous split position minus the overlap
(or at the split position itself), every window is non-degenerate and lies
inside the text, and concatenating the chunks with the prefix overlapping
the previous window removed reconstructs the text exactly. -/
theorem chunk_text_coverage (t : List Char) (maxc ov : Nat)
    (hne : t ≠ []) (hov : ov < maxc) :
    ∃ cs ws, chunk_text t maxc ov = some cs ∧
      cs = ws.map (fun w => pySlice t w.1 w.2) ∧
      (∃ w0 rest, ws = w0 :: rest ∧ w0.1 = 0) ∧
      ws.getLast?.map Prod.snd = some t.length ∧
      List.Chain' (fun a b => b.1 = a.2 - ov ∨ b.1 = a.2) ws ∧
      (∀ w ∈ ws, w.1 < w.2 ∧ w.2 ≤ t.length) ∧
      joinWindows t 0 ws = t := by
  have hlen : 0 < t.length := List.length_pos.mpr hne
  by_cases hsh : t.length ≤ maxc
  · refine ⟨[t], [(0, t.length)], by rw [chunk_text, if_pos hsh], ?_,
      ⟨(0, t.length), [], rfl, rfl⟩, by simp, by simp, by simpa using hlen, ?_⟩
    · simp [pySlice, List.take_length]
    · simp [joinWindows, pySlice, List.take_length]
  · obtain ⟨ws, hws, hct⟩ := @chunk_text_long t maxc ov (by omega) (by omega)
    obtain ⟨hhead, hlast, hchain, hwf, _⟩ :=
      @chunkLoopW_spec t maxc ov (by omega) _ 0 ws hws hlen
    have hjoin := chunkLoopW_join hov _ 0 ws 0 hws hlen (le_refl 0) (by omega)
    exact ⟨_, ws, hct, rfl, hhead, hlast, hchain,
      fun w hw => ⟨(hwf w hw).1, (hwf w hw).2.1⟩, by simpa using hjoin⟩

/-- Closed instance of C2 discharging its hypotheses on a concrete text. -/
theorem chunk_text_coverage_witness :
    ∃ cs ws, chunk_text ['a', 'b', '。', 'c', 'd'] 3 1 = some cs ∧
      cs = ws.map (fun w => pySlice ['a', 'b', '。', 'c', 'd'] w.1 w.2) ∧
      (∃ w0 rest, ws = w0 :: rest ∧ w0.1 = 0) ∧
      ws.getLast?.map Prod.snd = some (['a', 'b', '。', 'c', 'd'] : List Char).length ∧
      List.Chain' (fun a b => b.1 = a.2 - 1 ∨ b.1 = a.2) ws ∧
      (∀ w ∈ ws, w.1 < w.2 ∧ w.2 ≤ (['a', 'b', '。', 'c', 'd'] : List Char).length) ∧
      joinWindows ['a', 'b', '。', 'c', 'd'] 0 ws = ['a', 'b', '。', 'c', 'd'] :=
  chunk_text_coverage ['a', 'b', '。', 'c', 'd'] 3 1 (by decide) (by decide)

/-- C4: with `overlap < max_chars` and text longer than `max_chars`, every
non-final iteration advances `start` to `split_pos - overlap` or to
`split_pos` (per the source's guard) and this strictly increases `start`;
consequently segmentation terminates, producing a finite chunk list of at
most `len text` chunks (one strict advance per chunk). -/
theorem chunk_text_progress (t : List Char) (maxc ov : Nat)
    (hlong : maxc < t.length) (hov : ov < maxc) :
    (∀ s, s + maxc < t.length →
      (nextStart s (splitPos t s (s + maxc)) ov = splitPos t s (s + maxc) - ov ∨
        nextStart s (splitPos t s (s + maxc)) ov = splitPos t s (s + maxc)) ∧
      s < nextStart s (splitPos t s (s + maxc)) ov) ∧
    ∃ cs, chunk_text t maxc ov = some cs ∧ cs.length ≤ t.length := by
  constructor
  · intro s hs
    exact ⟨nextStart_cases s (splitPos t s (s + maxc)) ov,
      nextStart_gt ov (splitGo_gt (by omega) delims)⟩
  · obtain ⟨ws, hws, hct⟩ := @chunk_text_long t maxc ov hlong (by omega)
    obtain ⟨_, _, _, _, hcount⟩ :=
      @chunkLoopW_spec t maxc ov (by omega) _ 0 ws hws (by omega)
    refine ⟨_, hct, ?_⟩
    rw [List.length_map]
    omega

/-- Closed instance of C4 discharging its hypotheses on a concrete text. -/
theorem chunk_text_progress_witness :
    (∀ s, s + 2 < (['a', 'b', '。', 'c', 'd'] : List Char).length →
      (nextStart s (splitPos ['a', 'b', '。', 'c', 'd'] s (s + 2)) 1 =
          splitPos ['a', 'b', '。', 'c', 'd'] s (s + 2) - 1 ∨
        nextStart s (splitPos ['a', 'b', '。', 'c', 'd'] s (s + 2)) 1 =
          splitPos ['a', 'b', '。', 'c', 'd'] s (s + 2)) ∧
      s < nextStart s (splitPos ['a', 'b', '。', 'c', 'd'] s (s + 2)) 1) ∧
    ∃ cs, chunk_text ['a', 'b', '。', 'c', 'd'] 2 1 = some cs ∧
      cs.length ≤ (['a', 'b', '。', 'c', 'd'] : List Char).length :=
  chunk_text_progress ['a', 'b', '。', 'c', 'd'] 2 1 (by decide) (by decide)

/-- C8: with `overlap < max_chars`, segmentation succeeds, every chunk has
at most `max_chars` characters, and a text of at most `max_chars`
characters is returned whole as the single chunk. -/
theorem chunk_text_bounded (t : List Char) (maxc ov : Nat) (hov : ov < maxc) :
    ∃ cs, chunk_text t maxc ov = some cs ∧
      (∀ c ∈ cs, c.length ≤ maxc) ∧
      (t.length ≤ maxc → cs = [t]) := by
  by_cases hsh : t.length ≤ maxc
  · refine ⟨[t], by rw [chunk_text, if_pos hsh], ?_, fun _ => rfl⟩
    intro c hc
    rw [List.mem_singleton] at hc
    subst hc
    exact hsh
  · obtain ⟨ws, hws, hct⟩ := @chunk_text_long t maxc ov (by omega) (by omega)
    obtain ⟨_, _, _, hwf, _⟩ :=
      @chunkLoopW_spec t maxc ov (by omega) _ 0 ws hws (by omega)
    refine ⟨_, hct, ?_, fun h => absurd h hsh⟩
    intro c hc
    rw [List.mem_map] at hc
    obtain ⟨w, hw, rfl⟩ := hc
    obtain ⟨h1, h2, h3⟩ := hwf w hw
    rw [pySlice_length]
    omega

/-- Closed instance of C8 discharging its hypothesis on a concrete text. -/
theorem chunk_text_bounded_witness :
    ∃ cs, chunk_text ['x', 'y'] 8 3 = some cs ∧
      (∀ c ∈ cs, c.length ≤ 8) ∧
      ((['x', 'y'] : List Char).length ≤ 8 → cs = [['x', 'y']]) :=
  chunk_text_bounded ['x', 'y'] 8 3 (by decide)

/-- C5 counterexample: with malformed parameters `max_chars = 1 ≤ overlap
= 5`, the source raises nothing and happily returns a chunk list — there is
no fail-fast `InvalidArgument` check anywhere in `chunk_text`. -/
theorem chunk_text_no_invalid_argument_check :
    chunk_text ['a'] 1 5 = some [['a']] := by decide

/-- C5 as amended: `chunk_text` validates nothing.  Any text no longer than
`max_chars` is returned as a single chunk even when `max_chars ≤ overlap`,
and with `max_chars = 0` on a non-empty text the loop never terminates
(no fuel suffices) instead of failing fast. -/
theorem chunk_text_no_validation :
    (∀ (t : List Char) (maxc ov : Nat), t.length ≤ maxc →
      chunk_text t maxc ov = some [t]) ∧
    (∀ (t : List Char) (ov : Nat), t ≠ [] → chunk_text t 0 ov = none) := by
  constructor
  · intro t maxc ov h
    rw [chunk_text, if_pos h]
  · intro t ov hne
    have hlen : 0 < t.length := List.length_pos.mpr hne
    have hsp : splitPos t 0 (0 + 0) = 0 := by
      have : ∀ L, splitGo t 0 0 L = 0 := by
        intro L
        induction L with
        | nil => rfl
        | cons d ds ih =>
          have hnone : pyRfind t d 0 0 = none := by
            unfold pyRfind
            have h0 : min 0 t.length - 0 = 0 := by omega
            rw [h0]
            rfl
          rw [splitGo_cons_none hnone]
          exact ih
      exact this delims
    have hnext : nextStart 0 (splitPos t 0 (0 + 0)) ov = 0 := by
      rw [hsp]
      unfold nextStart
      split <;> omega
    have key : ∀ fuel, chunkLoop t 0 ov fuel 0 = none := by
      intro fuel
      induction fuel with
      | zero => rfl
      | succ fuel ih =>
        rw [chunkLoop_succ, if_pos hlen, if_neg (by omega), hnext, ih]
        rfl
    rw [chunk_text, if_neg (by omega)]
    exact key (t.length + 1)

/-- Closed instance of the amended C5 discharging its hypotheses. -/
theorem chunk_text_no_validation_witness :
    chunk_text ['a', 'b'] 2 9 = some [['a', 'b']] ∧ chunk_text ['c'] 0 3 = none :=
  ⟨chunk_text_no_validation.1 ['a', 'b'] 2 9 (by decide),
    chunk_text_no_validation.2 ['c'] 3 (by decide)⟩

/-! ## Chunk records produced by `process_pdf` -/

theorem chunk_text_ne_nil {t : List Char} {maxc ov : Nat} {cs : List (List Char)}
    (hne : t ≠ []) (h : chunk_text t maxc ov = some cs) :
    ∀ c ∈ cs, c ≠ [] := by
  by_cases hm : 1 ≤ maxc
  · by_cases hsh : t.length ≤ maxc
    · rw [chunk_text, if_pos hsh] at h
      cases h
      intro c hc
      rw [List.mem_singleton] at hc
      subst hc
      exact hne
    · rw [chunk_text, if_neg hsh, chunkLoop_eq_W] at h
      cases hws : chunkLoopW t maxc ov (t.length + 1) 0 with
      | none => rw [hws] at h; simp at h
      | some ws =>
        rw [hws] at h
        simp only [Option.map_some'] at h
        cases h
        obtain ⟨_, _, _, hwf, _⟩ :=
          @chunkLoopW_spec t maxc ov hm _ 0 ws hws (by omega)
        intro c hc
        rw [List.mem_map] at hc
        obtain ⟨w, hw, rfl⟩ := hc
        obtain ⟨h1, h2, _⟩ := hwf w hw
        exact pySlice_ne_nil h1 (by omega)
  · have h0 : maxc = 0 := by omega
    subst h0
    rw [chunk_text_no_validation.2 t ov hne] at h
    cases h

theorem mapM_option_mem {α β : Type} (f : α → Option β) :
    ∀ (l : List α) (bs : List β), l.mapM f = some bs → ∀ b ∈ bs, ∃ a ∈ l, f a = some b := by
  intro l
  induction l with
  | nil =>
    intro bs h b hb
    simp only [List.mapM_nil, Option.pure_def, Option.some.injEq] at h
    subst h
    simp at hb
  | cons a as ih =>
    intro bs h b hb
    rw [List.mapM_cons] at h
    cases hfa : f a with
    | none => rw [hfa] at h; simp at h
    | some b0 =>
      rw [hfa] at h
      cases hrest : as.mapM f with
      | none => rw [hrest] at h; simp at h
      | some bs0 =>
        rw [hrest] at h
        simp only [Option.pure_def, Option.bind_eq_bind, Option.some_bind,
          Option.some.injEq] at h
        subst h
        rcases List.mem_cons.mp hb with rfl | hmem
        · exact ⟨a, List.mem_cons_self a as, hfa⟩
        · obtain ⟨a', ha', hfa'⟩ := ih bs0 hrest b hmem
          exact ⟨a', List.mem_cons_of_mem a ha', hfa'⟩

/-- C6 as amended: every chunk record built from non-empty page texts has
non-empty `text` — but it can be whitespace-only (see the
counterexample). -/
theorem process_pdf_text_ne_nil (name : String) (pages : List (Nat × List Char))
    (maxc : Nat) (out : List ChunkInfo)
    (h : process_pdf_pages name pages maxc = some out)
    (hp : ∀ p ∈ pages, p.2 ≠ []) :
    ∀ c ∈ out, c.text ≠ [] := by
  unfold process_pdf_pages at h
  by_cases hemp : pages.isEmpty
  · rw [if_pos hemp] at h; cases h
  · rw [if_neg hemp] at h
    cases hM : pages.mapM (pageChunks name maxc) with
    | none => rw [hM] at h; simp at h
    | some ls =>
      rw [hM] at h
      simp only [Option.map_some'] at h
      cases h
      intro c hc
      rw [List.mem_flatten] at hc
      obtain ⟨l, hl, hcl⟩ := hc
      obtain ⟨p, hpmem, hfp⟩ := mapM_option_mem (pageChunks name maxc) pages ls hM l hl
      unfold pageChunks at hfp
      cases hct : chunk_text p.2 maxc 100 with
      | none => rw [hct] at hfp; cases hfp
      | some cs =>
        rw [hct] at hfp
        simp only [Option.map_some'] at hfp
        cases hfp
        rw [List.mem_map] at hcl
        obtain ⟨c0, hc0, rfl⟩ := hcl
        exact chunk_text_ne_nil (hp p hpmem) hct c0 hc0

/-- Closed instance of the amended C6 discharging its hypotheses. -/
theorem process_pdf_text_ne_nil_witness :
    (ChunkInfo.mk ("doc") 1 ['h', 'i'] none).text ≠ [] :=
  process_pdf_text_ne_nil ("doc") [(1, ['h', 'i'])] 8
    [ChunkInfo.mk ("doc") 1 ['h', 'i'] none] (by decide) (by decide)
    (ChunkInfo.mk ("doc") 1 ['h', 'i'] none) (by decide)

/-- C6 counterexample: a page whose (already stripped, non-empty) text is
`"ab。  zzzz"` split with `max_chunk_chars = 5` produces the middle chunk
`"  "`, which is whitespace-only — the claimed invariant that chunk text is
never whitespace-only fails on the code. -/
theorem process_pdf_whitespace_only_chunk :
    process_pdf_pages ("doc") [(1, ['a', 'b', '。', ' ', ' ', 'z', 'z', 'z', 'z'])] 5 =
      some [ChunkInfo.mk ("doc") 1 ['a', 'b', '。'] none,
        ChunkInfo.mk ("doc") 1 [' ', ' '] none,
        ChunkInfo.mk ("doc") 1 ['z', 'z', 'z', 'z'] none] ∧
    ([' ', ' '] : List Char) ≠ [] ∧
    (∀ c ∈ ([' ', ' '] : List Char), c.isWhitespace) := by
  refine ⟨by decide, by decide, by decide⟩

/-! ## The split choice equals its declarative description (C3) -/

theorem mem_occPositions {t : List Char} {d : Char} {s e q : Nat} :
    q ∈ occPositions t d s e ↔ s < q ∧ q < e ∧ q < t.length ∧ t[q]? = some d := by
  unfold occPositions
  rw [List.mem_filter, List.mem_range]
  simp only [Bool.and_eq_true, decide_eq_true_eq]
  constructor
  · rintro ⟨hq, ⟨h1, h2⟩, h3⟩
    exact ⟨h1, h2, hq, h3⟩
  · rintro ⟨h1, h2, h3, h4⟩
    exact ⟨h3, ⟨h1, h2⟩, h4⟩

theorem occPositions_sorted (t : List Char) (d : Char) (s e : Nat) :
    (occPositions t d s e).Pairwise (· < ·) :=
  List.Pairwise.filter _ (List.pairwise_lt_range t.length)

theorem getLast?_eq_of_max {l : List Nat} :
    l.Pairwise (· < ·) → ∀ p, p ∈ l → (∀ q ∈ l, q ≤ p) → l.getLast? = some p := by
  induction l with
  | nil => intro _ p hp; simp at hp
  | cons a l' ih =>
    intro hpw p hp hmax
    cases l' with
    | nil =>
      rw [List.mem_singleton] at hp
      subst hp
      rfl
    | cons b l'' =>
      rw [List.getLast?_cons_cons]
      have hab : a < b := (List.pairwise_cons.mp hpw).1 b (List.mem_cons_self b l'')
      have hpmem : p ∈ b :: l'' := by
        rcases List.mem_cons.mp hp with hpa | hmem
        · have hble := hmax b (List.mem_cons_of_mem _ (List.mem_cons_self b l''))
          omega
        · exact hmem
      exact ih (List.pairwise_cons.mp hpw).2 p hpmem
        (fun q hq => hmax q (List.mem_cons_of_mem a hq))

theorem max_of_getLast? {l : List Nat} :
    l.Pairwise (· < ·) → ∀ m, l.getLast? = some m → ∀ q ∈ l, q ≤ m := by
  induction l with
  | nil => intro _ m hm; cases hm
  | cons a l' ih =>
    intro hpw m hm q hq
    cases l' with
    | nil =>
      simp only [List.getLast?_singleton, Option.some.injEq] at hm
      rw [List.mem_singleton] at hq
      omega
    | cons b l'' =>
      rw [List.getLast?_cons_cons] at hm
      have htail := (List.pairwise_cons.mp hpw).2
      have hb : b ≤ m := ih htail m hm b (List.mem_cons_self b l'')
      rcases List.mem_cons.mp hq with rfl | hmem
      · have : q < b := (List.pairwise_cons.mp hpw).1 b (List.mem_cons_self b l'')
        omega
      · exact ih htail m hm q hmem

theorem splitGo_eq_spec {t : List Char} {s e : Nat} :
    ∀ L : List Char, splitGo t s e L =
      (match L.find? (fun d => !(occPositions t d s e).isEmpty) with
       | some d => (occPositions t d s e).getLast?.getD e + 1
       | none => e) := by
  intro L
  induction L with
  | nil => rfl
  | cons d ds ih =>
    by_cases hocc : occPositions t d s e = []
    · have hcond : (fun d => !(occPositions t d s e).isEmpty) d = false := by
        simp [hocc]
      rw [List.find?_cons_of_neg ds (by simp [hcond])]
      have hnoOcc : ∀ q, s < q → q < e → q < t.length → t[q]? ≠ some d := by
        intro q h1 h2 h3 h4
        have : q ∈ occPositions t d s e := mem_occPositions.mpr ⟨h1, h2, h3, h4⟩
        rw [hocc] at this
        simp at this
      cases hr : pyRfind t d s e with
      | none => rw [splitGo_cons_none hr]; exact ih
      | some p =>
        obtain ⟨hp1, hp2, hp3, hp4, _⟩ := pyRfind_eq_some hr
        by_cases hsp : s < p
        · exact absurd hp4 (hnoOcc p hsp hp2 hp3)
        · rw [splitGo_cons_skip hr hsp]; exact ih
    · have hcond : (fun d => !(occPositions t d s e).isEmpty) d = true := by
        simp [List.isEmpty_iff, hocc]
      rw [List.find?_cons_of_pos ds hcond]
      obtain ⟨m, hm⟩ := Option.isSome_iff_exists.mp (List.getLast?_isSome.mpr hocc)
      have hmm := List.mem_of_getLast?_eq_some hm
      obtain ⟨hm1, hm2, hm3, hm4⟩ := mem_occPositions.mp hmm
      obtain ⟨p, hp, hmp⟩ := @pyRfind_ge t d s e m hm4 (by omega) hm2 hm3
      obtain ⟨hp1, hp2, hp3, hp4, _⟩ := pyRfind_eq_some hp
      have hpm : p ∈ occPositions t d s e :=
        mem_occPositions.mpr ⟨by omega, hp2, hp3, hp4⟩
      have hple : p ≤ m := max_of_getLast? (occPositions_sorted t d s e) m hm p hpm
      have hpe : p = m := by omega
      show splitGo t s e (d :: ds) = (occPositions t d s e).getLast?.getD e + 1
      rw [splitGo_cons_break hp (by omega), hm]
      subst hpe
      rfl

/-- C3: the split position of `chunk_text` for any window `[s, e)` agrees
with its declarative description: the first delimiter in the priority order
full-width period, newline, full-width comma, space having any occurrence
strictly after `s` decides (priority, not proximity), the split point is
one past that delimiter's last occurrence in the window, and it defaults
to the raw window end `e` when no delimiter occurs. -/
theorem splitPos_eq_spec (t : List Char) (s e : Nat) :
    splitPos t s e = splitPosSpec t s e := by
  rw [splitPos, splitPosSpec]
  exact splitGo_eq_spec delims

/-! ## The search contract (C1, C9) -/

theorem simDesc_trans {α : Type} [LinearOrder α] :
    ∀ a b c : SearchResult α, simDesc a b → simDesc b c → simDesc a c := by
  intro a b c h1 h2
  simp only [simDesc, decide_eq_true_eq] at h1 h2 ⊢
  exact le_trans h2 h1

theorem simDesc_total {α : Type} [LinearOrder α] :
    ∀ a b : SearchResult α, simDesc a b || simDesc b a := by
  intro a b
  simp only [simDesc, Bool.or_eq_true, decide_eq_true_eq]
  exact le_total _ _

theorem mem_scanResults_threshold {α : Type} [LinearOrder α] {sim : List ℚ → α}
    {chunks : List ChunkInfo} {threshold : α} {r : SearchResult α}
    (h : r ∈ scanResults sim chunks threshold) : threshold ≤ r.similarity := by
  unfold scanResults at h
  rw [List.mem_filterMap] at h
  obtain ⟨c, hc, heq⟩ := h
  split at heq
  · cases heq
  · split at heq
    · cases heq
      assumption
    · cases heq

/-- C1: for every similarity function against the query, chunk list,
`top_k ≥ 1` and threshold, `search_similar_chunks` returns at most `top_k`
results; every returned result has similarity at least the threshold; the
returned results are sorted non-increasingly by similarity; results of
equal similarity appear in the original scan order (stability); and when
no chunk clears the threshold the result is the empty list, not an
error. -/
theorem search_contract {α : Type} [LinearOrder α] (sim : List ℚ → α)
    (chunks : List ChunkInfo) (topK : Nat) (threshold : α) (htk : 1 ≤ topK) :
    (search_similar_chunks sim chunks topK threshold).length ≤ topK ∧
    (∀ r ∈ search_similar_chunks sim chunks topK threshold,
      threshold ≤ r.similarity) ∧
    List.Pairwise (fun a b => b.similarity ≤ a.similarity)
      (search_similar_chunks sim chunks topK threshold) ∧
    (∀ x y : SearchResult α, x.similarity = y.similarity →
      List.Sublist [x, y] (search_similar_chunks sim chunks topK threshold) →
      List.Sublist [x, y] (scanResults sim chunks threshold)) ∧
    (scanResults sim chunks threshold = [] →
      search_similar_chunks sim chunks topK threshold = []) := by
  have htrans : ∀ a b c : SearchResult α, simDesc a b → simDesc b c → simDesc a c :=
    simDesc_trans
  have htotal : ∀ a b : SearchResult α, simDesc a b || simDesc b a := simDesc_total
  refine ⟨?_, ?_, ?_, ?_, ?_⟩
  · rw [search_similar_chunks, List.length_take]
    exact Nat.min_le_left _ _
  · intro r hr
    apply mem_scanResults_threshold
    exact List.mem_mergeSort.mp ((List.take_sublist _ _).subset hr)
  · have hs := List.sorted_mergeSort htrans htotal (scanResults sim chunks threshold)
    rw [search_similar_chunks]
    apply List.Pairwise.imp ?_ (List.Pairwise.sublist (List.take_sublist _ _) hs)
    intro a b hab
    simpa [simDesc] using hab
  · intro x y hxy hsub
    have hsub' : List.Sublist [x, y]
        ((scanResults sim chunks threshold).mergeSort simDesc) :=
      hsub.trans (List.take_sublist _ _)
    have hpfilter : ∀ r ∈ (scanResults sim chunks threshold).filter
          (fun r => decide (r.similarity = x.similarity)),
        ∀ r' ∈ (scanResults sim chunks threshold).filter
          (fun r => decide (r.similarity = x.similarity)), simDesc r r' := by
      intro r hr r' hr'
      have h1 := (List.mem_filter.mp hr).2
      have h2 := (List.mem_filter.mp hr').2
      simp only [decide_eq_true_eq] at h1 h2
      simp only [simDesc, decide_eq_true_eq]
      rw [h1, h2]
    have hfsub : List.Sublist
        ((scanResults sim chunks threshold).filter
          (fun r => decide (r.similarity = x.similarity)))
        ((scanResults sim chunks threshold).mergeSort simDesc) :=
      List.sublist_mergeSort htrans htotal
        (List.pairwise_of_forall_mem_list hpfilter)
        (List.filter_sublist (scanResults sim chunks threshold))
    have hperm : (((scanResults sim chunks threshold).mergeSort simDesc).filter
          (fun r => decide (r.similarity = x.similarity))).Perm
        ((scanResults sim chunks threshold).filter
          (fun r => decide (r.similarity = x.similarity))) :=
      (List.mergeSort_perm (scanResults sim chunks threshold) simDesc).filter _
    have hf2 : List.Sublist
        ((scanResults sim chunks threshold).filter
          (fun r => decide (r.similarity = x.similarity)))
        (((scanResults sim chunks threshold).mergeSort simDesc).filter
          (fun r => decide (r.similarity = x.similarity))) := by
      have h3 := List.Sublist.filter
        (fun r : SearchResult α => decide (r.similarity = x.similarity)) hfsub
      rwa [List.filter_eq_self.mpr (fun a ha => (List.mem_filter.mp ha).2)] at h3
    have heq := hf2.eq_of_length (by rw [hperm.length_eq])
    have hxyf : List.Sublist [x, y]
        (((scanResults sim chunks threshold).mergeSort simDesc).filter
          (fun r => decide (r.similarity = x.similarity))) := by
      have h4 := List.Sublist.filter
        (fun r : SearchResult α => decide (r.similarity = x.similarity)) hsub'
      have h5 : [x, y].filter
          (fun r : SearchResult α => decide (r.similarity = x.similarity)) = [x, y] := by
        apply List.filter_eq_self.mpr
        intro a ha
        rcases List.mem_cons.mp ha with rfl | ha'
        · simp
        · rw [List.mem_singleton] at ha'
          subst ha'
          simp [hxy]
      rwa [h5] at h4
    rw [← heq] at hxyf
    exact hxyf.trans (List.filter_sublist (scanResults sim chunks threshold))
  · intro h
    rw [search_similar_chunks, h]
    simp [List.mergeSort_nil]

/-- Closed instance of C1 discharging its hypothesis on concrete data. -/
theorem search_contract_witness :
    (search_similar_chunks (fun v => v.headD 0)
      [ChunkInfo.mk ("a") 1 ['x'] (some [1]), ChunkInfo.mk ("b") 2 ['y'] none]
      1 0).length ≤ 1 ∧
    (∀ r ∈ search_similar_chunks (fun v => v.headD 0)
      [ChunkInfo.mk ("a") 1 ['x'] (some [1]), ChunkInfo.mk ("b") 2 ['y'] none]
      1 0, (0 : ℚ) ≤ r.similarity) ∧
    List.Pairwise (fun a b => b.similarity ≤ a.similarity)
      (search_similar_chunks (fun v => v.headD 0)
        [ChunkInfo.mk ("a") 1 ['x'] (some [1]), ChunkInfo.mk ("b") 2 ['y'] none]
        1 0) ∧
    (∀ x y : SearchResult ℚ, x.similarity = y.similarity →
      List.Sublist [x, y] (search_similar_chunks (fun v => v.headD 0)
        [ChunkInfo.mk ("a") 1 ['x'] (some [1]), ChunkInfo.mk ("b") 2 ['y'] none]
        1 0) →
      List.Sublist [x, y] (scanResults (fun v => v.headD 0)
        [ChunkInfo.mk ("a") 1 ['x'] (some [1]), ChunkInfo.mk ("b") 2 ['y'] none] 0)) ∧
    (scanResults (fun v => v.headD 0)
        [ChunkInfo.mk ("a") 1 ['x'] (some [1]), ChunkInfo.mk ("b") 2 ['y'] none] 0 = [] →
      search_similar_chunks (fun v => v.headD 0)
        [ChunkInfo.mk ("a") 1 ['x'] (some [1]), ChunkInfo.mk ("b") 2 ['y'] none]
        1 0 = []) :=
  search_contract (fun v => v.headD 0)
    [ChunkInfo.mk ("a") 1 ['x'] (some [1]), ChunkInfo.mk ("b") 2 ['y'] none]
    1 0 (by decide)

theorem scanResults_length {α : Type} [LinearOrder α] (sim : List ℚ → α)
    (threshold : α) :
    ∀ chunks : List ChunkInfo,
      (scanResults sim chunks threshold).length =
        chunks.countP (fun c =>
          match c.embedding with
          | some v => decide (threshold ≤ sim v)
          | none => false) := by
  intro chunks
  induction chunks with
  | nil => rfl
  | cons c cs ih =>
    unfold scanResults at ih ⊢
    rw [List.filterMap_cons, List.countP_cons]
    cases hemb : c.embedding with
    | none => simp [hemb, ih]
    | some emb =>
      by_cases hth : threshold ≤ sim emb
      · simp [hemb, hth, ih]
      · simp [hemb, hth, ih]

/-- C9: `search_similar_chunks` returns exactly `min top_k m` results,
where `m` counts the chunks whose embedding is set and whose similarity
clears the threshold (chunks with an unset embedding are skipped without
error), and when `m ≤ top_k` every qualifying chunk appears in the
output (completeness). -/
theorem search_exact_count {α : Type} [LinearOrder α] (sim : List ℚ → α)
    (chunks : List ChunkInfo) (topK : Nat) (threshold : α) (htk : 1 ≤ topK) :
    (search_similar_chunks sim chunks topK threshold).length =
      min topK (chunks.countP (fun c =>
        match c.embedding with
        | some v => decide (threshold ≤ sim v)
        | none => false)) ∧
    (chunks.countP (fun c =>
        match c.embedding with
        | some v => decide (threshold ≤ sim v)
        | none => false) ≤ topK →
      ∀ c ∈ chunks, ∀ v, c.embedding = some v → threshold ≤ sim v →
        (⟨c.pdf_name, c.page_number, c.text, sim v⟩ : SearchResult α) ∈
          search_similar_chunks sim chunks topK threshold) := by
  constructor
  · rw [search_similar_chunks, List.length_take, List.length_mergeSort,
      scanResults_length]
  · intro hm c hc v hv hth
    have hmemscan : (⟨c.pdf_name, c.page_number, c.text, sim v⟩ : SearchResult α) ∈
        scanResults sim chunks threshold := by
      unfold scanResults
      rw [List.mem_filterMap]
      refine ⟨c, hc, ?_⟩
      rw [hv]
      simp only [if_pos hth]
    have hlen : ((scanResults sim chunks threshold).mergeSort simDesc).length ≤ topK := by
      rw [List.length_mergeSort, scanResults_length]
      exact hm
    rw [search_similar_chunks, List.take_of_length_le hlen]
    exact List.mem_mergeSort.mpr hmemscan

/-- Closed instance of C9 discharging its hypothesis on concrete data. -/
theorem search_exact_count_witness :
    (search_similar_chunks (fun v => v.headD 0)
      [ChunkInfo.mk ("a") 1 ['x'] (some [1]), ChunkInfo.mk ("b") 2 ['y'] none]
      3 0).length =
      min 3 (List.countP (fun c =>
        match c.embedding with
        | some v => decide ((0 : ℚ) ≤ (fun v => v.headD 0) v)
        | none => false)
        [ChunkInfo.mk ("a") 1 ['x'] (some [1]), ChunkInfo.mk ("b") 2 ['y'] none]) ∧
    (List.countP (fun c =>
        match c.embedding with
        | some v => decide ((0 : ℚ) ≤ (fun v => v.headD 0) v)
        | none => false)
        [ChunkInfo.mk ("a") 1 ['x'] (some [1]), ChunkInfo.mk ("b") 2 ['y'] none] ≤ 3 →
      ∀ c ∈ [ChunkInfo.mk ("a") 1 ['x'] (some [1]), ChunkInfo.mk ("b") 2 ['y'] none],
        ∀ v, c.embedding = some v → (0 : ℚ) ≤ (fun v => v.headD 0) v →
        (⟨c.pdf_name, c.page_number, c.text, (fun v => v.headD 0) v⟩ : SearchResult ℚ) ∈
          search_similar_chunks (fun v => v.headD 0)
            [ChunkInfo.mk ("a") 1 ['x'] (some [1]), ChunkInfo.mk ("b") 2 ['y'] none]
            3 0) :=
  search_exact_count (fun v => v.headD 0)
    [ChunkInfo.mk ("a") 1 ['x'] (some [1]), ChunkInfo.mk ("b") 2 ['y'] none]
    3 0 (by decide)

/-! ## Cosine similarity (C7, C10) -/

theorem dotProduct_cons (x y : ℚ) (a b : List ℚ) :
    dotProduct (x :: a) (y :: b) = x * y + dotProduct a b := by
  simp [dotProduct]

theorem dotProduct_comm (a b : List ℚ) : dotProduct a b = dotProduct b a := by
  unfold dotProduct
  rw [List.zipWith_comm_of_comm (fun x y => x * y) mul_comm]

theorem normSq_nonneg (a : List ℚ) : 0 ≤ normSq a := by
  induction a with
  | nil => simp [normSq, dotProduct]
  | cons x a' ih =>
    rw [normSq, dotProduct_cons]
    have hx : 0 ≤ x * x := mul_self_nonneg x
    rw [normSq] at ih
    linarith

theorem normSq_eq_zero_iff (a : List ℚ) : normSq a = 0 ↔ ∀ x ∈ a, x = 0 := by
  induction a with
  | nil => simp [normSq, dotProduct]
  | cons x a' ih =>
    rw [normSq, dotProduct_cons]
    have hx : 0 ≤ x * x := mul_self_nonneg x
    have ha : 0 ≤ normSq a' := normSq_nonneg a'
    rw [normSq] at ih ha
    constructor
    · intro h
      have hx0 : x * x = 0 := by linarith
      have ha0 : dotProduct a' a' = 0 := by linarith
      intro y hy
      rcases List.mem_cons.mp hy with rfl | hmem
      · exact mul_self_eq_zero.mp hx0
      · exact ih.mp ha0 y hmem
    · intro h
      have hx0 : x = 0 := h x (List.mem_cons_self x a')
      have ha0 : dotProduct a' a' = 0 :=
        ih.mpr (fun y hy => h y (List.mem_cons_of_mem x hy))
      rw [hx0, ha0]
      ring

/-- Cauchy–Schwarz for the exact dot product on lists of rationals. -/
theorem dotProduct_sq_le (a : List ℚ) :
    ∀ b : List ℚ, dotProduct a b ^ 2 ≤ normSq a * normSq b := by
  induction a with
  | nil =>
    intro b
    simp [dotProduct, normSq]
  | cons x a' ih =>
    intro b
    cases b with
    | nil =>
      simp [dotProduct, normSq]
    | cons y b' =>
      rw [dotProduct_cons, normSq, normSq, dotProduct_cons, dotProduct_cons]
      have hD := ih b'
      rw [normSq, normSq] at hD
      have hA : 0 ≤ dotProduct a' a' := by
        have := normSq_nonneg a'
        rwa [normSq] at this
      have hB : 0 ≤ dotProduct b' b' := by
        have := normSq_nonneg b'
        rwa [normSq] at this
      set D := dotProduct a' b' with hDdef
      set A := dotProduct a' a' with hAdef
      set B := dotProduct b' b' with hBdef
      rcases eq_or_lt_of_le hB with hB0 | hBpos
      · have hD2 : D ^ 2 ≤ 0 := by rw [← hB0, mul_zero] at hD; exact hD
        have hD0 : D = 0 := sq_eq_zero_iff.mp (le_antisymm hD2 (sq_nonneg D))
        rw [hD0, ← hB0]
        nlinarith [mul_nonneg hA (mul_self_nonneg y)]
      · nlinarith [sq_nonneg (x * B - y * D),
          mul_nonneg (add_nonneg (mul_self_nonneg y) hB) (sub_nonneg.mpr hD)]

/-- C7: cosine similarity equals the dot product over the product of the
Euclidean norms whenever both norms are non-zero, always lies in
`[-1, 1]`, equals `1` on identical non-zero vectors, equals `0` (a defined
fallback, not an error) whenever either norm is exactly zero, and a norm is
zero exactly when the vector is all zeros. -/
theorem cosine_similarity_props (a b : List ℚ) (hlen : a.length = b.length) :
    (normSq a ≠ 0 → normSq b ≠ 0 →
      calculate_cosine_similarity a b =
        (dotProduct a b : ℝ) / (Real.sqrt (normSq a) * Real.sqrt (normSq b))) ∧
    (-1 ≤ calculate_cosine_similarity a b ∧ calculate_cosine_similarity a b ≤ 1) ∧
    (a = b → normSq a ≠ 0 → calculate_cosine_similarity a b = 1) ∧
    ((normSq a = 0 ∨ normSq b = 0) → calculate_cosine_similarity a b = 0) ∧
    (normSq a = 0 ↔ ∀ x ∈ a, x = 0) := by
  have hAnn : (0 : ℝ) ≤ ((normSq a : ℚ) : ℝ) := by exact_mod_cast normSq_nonneg a
  have hBnn : (0 : ℝ) ≤ ((normSq b : ℚ) : ℝ) := by exact_mod_cast normSq_nonneg b
  have hsA : Real.sqrt ((normSq a : ℚ) : ℝ) = 0 ↔ normSq a = 0 := by
    rw [Real.sqrt_eq_zero hAnn, Rat.cast_eq_zero]
  have hsB : Real.sqrt ((normSq b : ℚ) : ℝ) = 0 ↔ normSq b = 0 := by
    rw [Real.sqrt_eq_zero hBnn, Rat.cast_eq_zero]
  refine ⟨?_, ?_, ?_, ?_, normSq_eq_zero_iff a⟩
  · intro ha hb
    rw [calculate_cosine_similarity, if_neg]
    rintro (h | h)
    · exact ha (hsA.mp h)
    · exact hb (hsB.mp h)
  · by_cases hc : Real.sqrt ((normSq a : ℚ) : ℝ) = 0 ∨ Real.sqrt ((normSq b : ℚ) : ℝ) = 0
    · rw [calculate_cosine_similarity, if_pos hc]
      norm_num
    · rw [calculate_cosine_similarity, if_neg hc]
      push_neg at hc
      obtain ⟨h1, h2⟩ := hc
      have hsApos : 0 < Real.sqrt ((normSq a : ℚ) : ℝ) :=
        lt_of_le_of_ne (Real.sqrt_nonneg _) (Ne.symm h1)
      have hsBpos : 0 < Real.sqrt ((normSq b : ℚ) : ℝ) :=
        lt_of_le_of_ne (Real.sqrt_nonneg _) (Ne.symm h2)
      have hden : 0 < Real.sqrt ((normSq a : ℚ) : ℝ) * Real.sqrt ((normSq b : ℚ) : ℝ) :=
        mul_pos hsApos hsBpos
      have hcs : ((dotProduct a b : ℚ) : ℝ) ^ 2 ≤
          ((normSq a : ℚ) : ℝ) * ((normSq b : ℚ) : ℝ) := by
        exact_mod_cast dotProduct_sq_le a b
      have hsq : (Real.sqrt ((normSq a : ℚ) : ℝ) * Real.sqrt ((normSq b : ℚ) : ℝ)) ^ 2 =
          ((normSq a : ℚ) : ℝ) * ((normSq b : ℚ) : ℝ) := by
        rw [mul_pow, Real.sq_sqrt hAnn, Real.sq_sqrt hBnn]
      have habs : |((dotProduct a b : ℚ) : ℝ)| ≤
          Real.sqrt ((normSq a : ℚ) : ℝ) * Real.sqrt ((normSq b : ℚ) : ℝ) := by
        rw [← Real.sqrt_sq_eq_abs, ← Real.sqrt_sq hden.le]
        exact Real.sqrt_le_sqrt (by rw [hsq]; exact hcs)
      obtain ⟨hlow, hhigh⟩ := abs_le.mp habs
      constructor
      · rw [le_div_iff hden]
        linarith
      · rw [div_le_one hden]
        exact hhigh
  · rintro rfl ha
    rw [calculate_cosine_similarity, if_neg]
    · have hd : dotProduct a a = normSq a := rfl
      rw [hd, Real.mul_self_sqrt hAnn, div_self]
      rw [ne_eq, Rat.cast_eq_zero]
      exact ha
    · rintro (h | h) <;> exact ha (hsA.mp h)
  · intro h
    rw [calculate_cosine_similarity, if_pos]
    rcases h with h | h
    · exact Or.inl (hsA.mpr h)
    · exact Or.inr (hsB.mpr h)

/-- Closed instance of C7 discharging its hypothesis on a concrete vector
pair. -/
theorem cosine_similarity_props_witness :
    (normSq [(1 : ℚ)] ≠ 0 → normSq [(1 : ℚ)] ≠ 0 →
      calculate_cosine_similarity [(1 : ℚ)] [(1 : ℚ)] =
        (dotProduct [(1 : ℚ)] [(1 : ℚ)] : ℝ) /
          (Real.sqrt (normSq [(1 : ℚ)]) * Real.sqrt (normSq [(1 : ℚ)]))) ∧
    (-1 ≤ calculate_cosine_similarity [(1 : ℚ)] [(1 : ℚ)] ∧
      calculate_cosine_similarity [(1 : ℚ)] [(1 : ℚ)] ≤ 1) ∧
    (([(1 : ℚ)] : List ℚ) = [(1 : ℚ)] → normSq [(1 : ℚ)] ≠ 0 →
      calculate_cosine_similarity [(1 : ℚ)] [(1 : ℚ)] = 1) ∧
    ((normSq [(1 : ℚ)] = 0 ∨ normSq [(1 : ℚ)] = 0) →
      calculate_cosine_similarity [(1 : ℚ)] [(1 : ℚ)] = 0) ∧
    (normSq [(1 : ℚ)] = 0 ↔ ∀ x ∈ [(1 : ℚ)], x = 0) :=
  cosine_similarity_props [(1 : ℚ)] [(1 : ℚ)] rfl

/-- C10: cosine similarity is symmetric in its two arguments, including the
zero-norm fallback branch. -/
theorem cosine_similarity_symm (a b : List ℚ) (hlen : a.length = b.length) :
    calculate_cosine_similarity a b = calculate_cosine_similarity b a := by
  unfold calculate_cosine_similarity
  rw [dotProduct_comm]
  by_cases h : Real.sqrt ((normSq a : ℚ) : ℝ) = 0 ∨ Real.sqrt ((normSq b : ℚ) : ℝ) = 0
  · rw [if_pos h, if_pos (Or.symm h)]
  · rw [if_neg h, if_neg (fun hc => h (Or.symm hc)), mul_comm]

/-- Closed instance of C10 discharging its hypothesis on a concrete vector
pair. -/
theorem cosine_similarity_symm_witness :
    calculate_cosine_similarity [(1 : ℚ), 2] [(3 : ℚ), 4] =
      calculate_cosine_similarity [(3 : ℚ), 4] [(1 : ℚ), 2] :=
  cosine_similarity_symm [(1 : ℚ), 2] [(3 : ℚ), 4] rfl
